import Mathlib

/-!
Verification of the RTL translator core (`RTLConverter` in `src/app.py`).

The Python code is shallowly embedded: strings are Lean `String`s, the regex
scanner `re.findall(r'\d+|\w+|[+\-*/]', ...)` becomes the explicit ordered
first-match scanner `scanTokens`, Python's `int(...)` acceptance test becomes
`is_number`, and the stateful converter object becomes the structure
`RTLConverter` with explicit state passing. ASCII inputs are assumed
throughout (the repository's inputs are ASCII expressions).
-/

namespace App

/-- A single-character arithmetic operator, as in the character class
`[+\-*/]` of the scanner regex. -/
def isOpChar (c : Char) : Bool :=
  c == '+' || c == '-' || c == '*' || c == '/'

/-- A word character in the sense of the regex `\w` (ASCII): letter, digit
or underscore. -/
def isWordChar (c : Char) : Bool :=
  c.isAlpha || c.isDigit || c == '_'

/-- `(l.dropWhile p).length ≤ l.length`, needed for termination of the
scanner. -/
theorem dropWhile_len_le {α : Type} (p : α → Bool) :
    ∀ l : List α, (l.dropWhile p).length ≤ l.length := by
  intro l
  induction l with
  | nil => simp [List.dropWhile]
  | cons c cs ih =>
    by_cases h : p c
    · rw [List.dropWhile_cons_of_pos h]
      exact Nat.le_succ_of_le ih
    · rw [List.dropWhile_cons_of_neg h]

/-- The scanner `re.findall(r'\d+|\w+|[+\-*/]', s)`: at each position the
alternatives are tried in order (digit run, then word run, then a single
operator character); a character matching none of them is skipped. -/
def scanTokens : List Char → List String
  | [] => []
  | c :: cs =>
    if c.isDigit then
      String.mk (c :: cs.takeWhile Char.isDigit) :: scanTokens (cs.dropWhile Char.isDigit)
    else if isWordChar c then
      String.mk (c :: cs.takeWhile isWordChar) :: scanTokens (cs.dropWhile isWordChar)
    else if isOpChar c then
      String.mk [c] :: scanTokens cs
    else
      scanTokens cs
termination_by l => l.length
decreasing_by
  · exact Nat.lt_succ_of_le (dropWhile_len_le _ _)
  · exact Nat.lt_succ_of_le (dropWhile_len_le _ _)
  · exact Nat.lt_succ_self _
  · exact Nat.lt_succ_self _

/-- `RTLConverter.parse_expression`: remove every space character
(`expression.replace(' ', '')`), then scan. -/
def parse_expression (s : String) : List String :=
  scanTokens (s.data.filter (fun c => c != ' '))

/-- Python `token.isalpha()`: nonempty and every character alphabetic. -/
def pyIsAlpha (t : String) : Bool :=
  !t.data.isEmpty && t.data.all Char.isAlpha

/-- After the leading digit of an integer literal accepted by Python
`int(...)`: a sequence of digits in which a single underscore may appear
between two digits. -/
def intDigitTail : List Char → Bool
  | [] => true
  | '_' :: [] => false
  | '_' :: d :: rest => d.isDigit && intDigitTail rest
  | d :: rest => d.isDigit && intDigitTail rest

/-- The unsigned core of a Python `int(...)` literal: a leading digit
followed by `intDigitTail`. -/
def pyIntCore : List Char → Bool
  | [] => false
  | d :: rest => d.isDigit && intDigitTail rest

/-- Strip leading and trailing whitespace (Python `str.strip()`). -/
def stripWs (l : List Char) : List Char :=
  ((l.dropWhile Char.isWhitespace).reverse.dropWhile Char.isWhitespace).reverse

/-- An optional sign in front of the digit core. -/
def pyIntSigned : List Char → Bool
  | '+' :: rest => pyIntCore rest
  | '-' :: rest => pyIntCore rest
  | l => pyIntCore l

/-- `RTLConverter.is_number`: whether Python `int(token)` succeeds. -/
def is_number (t : String) : Bool :=
  pyIntSigned (stripWs t.data)

/-- `RTLConverter.is_operator`. -/
def is_operator (t : String) : Bool :=
  t == "+" || t == "-" || t == "*" || t == "/"

/-- The left-hand-side check `re.match(r'^[a-zA-Z_][a-zA-Z0-9_]*$', v)`. -/
def isValidVarName (s : String) : Bool :=
  match s.data with
  | [] => false
  | c :: cs => (c.isAlpha || c == '_') && cs.all isWordChar

/-- The register name `f"R{n}"`. -/
def regName (n : Nat) : String :=
  "R" ++ toString n

/-- Python `expression.split('=')` on the character list. -/
def splitEq : List Char → List (List Char)
  | [] => [[]]
  | '=' :: cs => [] :: splitEq cs
  | c :: cs =>
    match splitEq cs with
    | [] => [[c]]
    | p :: ps => (c :: p) :: ps

/-- The converter's mutable state: the register counter and the instruction
buffer (`self.register_counter`, `self.rtl_instructions`). -/
structure RTLConverter where
  register_counter : Nat
  rtl_instructions : List String

/-- `RTLConverter.reset`. -/
def RTLConverter.reset (_ : RTLConverter) : RTLConverter :=
  ⟨1, []⟩

/-- `RTLConverter.get_next_register`: returns the fresh register name and
the updated state. -/
def RTLConverter.get_next_register (self : RTLConverter) : String × RTLConverter :=
  (regName self.register_counter,
   { self with register_counter := self.register_counter + 1 })

/-- The `while` loop of `convert_to_rtl` from index 1 on: `tokens` is the
token list after the first operand, `current_register` the accumulator,
`pos` the index of the head of `tokens` in the full token list.  Each
step consumes an operator and an operand, allocates two registers (the
operand register, then the result register) and appends the two emitted
instructions; on exhaustion the final `vname <- accumulator`
instruction is appended. -/
def convertLoop (vname : String) (self : RTLConverter) (current_register : String)
    (pos : Nat) : List String → List String × String
  | [] =>
    (self.rtl_instructions ++ [vname ++ " <- " ++ current_register], "")
  | tok :: rest =>
    if !is_operator tok then
      ([], "Error: Expected operator at position " ++ toString pos)
    else
      match rest with
      | [] => ([], "Error: Missing operand after operator")
      | next_operand :: rest2 =>
        if !(is_number next_operand || pyIsAlpha next_operand) then
          ([], "Error: Expected number or variable at position " ++ toString (pos + 1))
        else
          convertLoop vname
            ⟨self.register_counter + 2,
             self.rtl_instructions ++
               [regName self.register_counter ++ " <- " ++ next_operand,
                regName (self.register_counter + 1) ++ " <- " ++ current_register ++ " " ++
                  tok ++ " " ++ regName self.register_counter]⟩
            (regName (self.register_counter + 1)) (pos + 2) rest2

/-- `RTLConverter.convert_to_rtl`: validation and emission, returning the
pair (instruction list, error message). -/
def RTLConverter.convert_to_rtl (self : RTLConverter) (expression : String) :
    List String × String :=
  let self := self.reset
  let parts := (splitEq expression.data).map String.mk
  match parts with
  | [_] => ([], "Error: Expression must contain an assignment (=)")
  | [p0, p1] =>
    let vname := String.mk (stripWs p0.data)
    let expr := String.mk (stripWs p1.data)
    if !isValidVarName vname then
      ([], "Error: Invalid variable name")
    else
      match parse_expression expr with
      | [] => ([], "Error: Empty expression")
      | [t] =>
        if is_number t || pyIsAlpha t then
          (self.rtl_instructions ++ [vname ++ " <- " ++ t], "")
        else
          ([], "Error: Invalid single token")
      | t0 :: t1 :: rest =>
        if is_number t0 || pyIsAlpha t0 then
          let current_register := regName self.register_counter
          convertLoop vname
            ⟨self.register_counter + 1,
             self.rtl_instructions ++ [current_register ++ " <- " ++ t0]⟩
            current_register 1 (t1 :: rest)
        else
          ([], "Error: Expected number or variable at position 0")
  | _ => ([], "Error: Invalid assignment format")

/-- The destination of an emitted instruction string: the text before the
first space (destinations are register or variable names, which contain
no spaces). -/
def instrDest (s : String) : String :=
  String.mk (s.data.takeWhile (fun c => c != ' '))

/-- Split a character list into maximal space-free words, dropping the
spaces. -/
def splitWords : List Char → List String
  | [] => []
  | c :: cs =>
    if c == ' ' then
      splitWords cs
    else
      String.mk (c :: cs.takeWhile (fun x => x != ' ')) ::
        splitWords (cs.dropWhile (fun x => x != ' '))
termination_by l => l.length
decreasing_by
  · exact Nat.lt_succ_self _
  · exact Nat.lt_succ_of_le (dropWhile_len_le _ _)

/-- The source operands of an emitted instruction string: the words after
the `" <- "` marker. -/
def instrSrcs (s : String) : List String :=
  splitWords ((s.data.dropWhile (fun c => c != ' ')).drop 4)

/-- Whether a string is a register name: `R` followed by a nonempty digit
run. -/
def isRegisterName (s : String) : Bool :=
  match s.data with
  | c :: ds => c == 'R' && !ds.isEmpty && ds.all Char.isDigit
  | [] => false

/-- The token list of the right-hand side of an expression, as
`convert_to_rtl` computes it (empty unless the split on `=` yields exactly
two parts). -/
def rhsTokens (e : String) : List String :=
  match (splitEq e.data).map String.mk with
  | [_, p1] => parse_expression (String.mk (stripWs p1.data))
  | _ => []

/-- The declared left-hand-side variable name: the trimmed text before the
first `=`. -/
def lhsVar (e : String) : String :=
  match splitEq e.data with
  | p0 :: _ => String.mk (stripWs p0)
  | [] => ""

/-! ## Character class facts -/

/-- A decimal digit is not a letter. -/
theorem digit_not_alpha {c : Char} (h : c.isDigit = true) : c.isAlpha = false := by
  by_contra hc
  rw [Bool.not_eq_false] at hc
  simp only [Char.isDigit, Char.isAlpha, Char.isUpper, Char.isLower, Bool.and_eq_true,
    Bool.or_eq_true, decide_eq_true_eq, ge_iff_le, UInt32.le_def, BitVec.le_def,
    UInt32.toBitVec_ofNat, BitVec.toNat_ofNat] at h hc
  norm_num at h hc
  omega

/-- The four whitespace characters. -/
theorem ws_cases {c : Char} (h : c.isWhitespace = true) :
    c = ' ' ∨ c = '\t' ∨ c = '\r' ∨ c = '\n' := by
  simp only [Char.isWhitespace, Bool.or_eq_true, decide_eq_true_eq] at h
  tauto

/-- A word character is not whitespace. -/
theorem word_not_ws {c : Char} (h : isWordChar c = true) : c.isWhitespace = false := by
  by_contra hc
  rw [Bool.not_eq_false] at hc
  rcases ws_cases hc with rfl | rfl | rfl | rfl <;> exact absurd h (by decide)

/-- A word character is not a space. -/
theorem word_ne_space {c : Char} (h : isWordChar c = true) : (c != ' ') = true := by
  by_contra hc
  rw [Bool.not_eq_true, bne_eq_false_iff_eq] at hc
  subst hc
  exact absurd h (by decide)

theorem digit_isWordChar {c : Char} (h : c.isDigit = true) : isWordChar c = true := by
  simp [isWordChar, h]

theorem alpha_isWordChar {c : Char} (h : c.isAlpha = true) : isWordChar c = true := by
  simp [isWordChar, h]

/-! ## `takeWhile`/`dropWhile` helpers -/

theorem dropWhile_of_all_neg {α : Type} {p : α → Bool} :
    ∀ {l : List α}, (∀ x ∈ l, p x = false) → l.dropWhile p = l := by
  intro l h
  induction l with
  | nil => rfl
  | cons c cs ih =>
    rw [List.dropWhile_cons_of_neg]
    simp [h c (by simp)]

theorem mem_dropWhile_or {α : Type} {p : α → Bool} {x : α} :
    ∀ {l : List α}, x ∈ l → x ∈ l.dropWhile p ∨ p x = true := by
  intro l h
  induction l with
  | nil => simp at h
  | cons c cs ih =>
    by_cases hp : p c = true
    · rw [List.dropWhile_cons_of_pos hp]
      rcases List.mem_cons.mp h with rfl | hmem
      · right; exact hp
      · exact ih hmem
    · rw [List.dropWhile_cons_of_neg (by simpa using hp)]
      left; exact h

theorem takeWhile_append_left {α : Type} {p : α → Bool} :
    ∀ (l1 l2 : List α), (∀ x ∈ l1, p x = true) → (l1 ++ l2).takeWhile p = l1 ++ l2.takeWhile p := by
  intro l1 l2 h
  induction l1 with
  | nil => rfl
  | cons c cs ih =>
    rw [List.cons_append, List.takeWhile_cons_of_pos (h c (by simp)), ih]
    · rfl
    · intro x hx; exact h x (by simp [hx])

theorem dropWhile_append_left {α : Type} {p : α → Bool} :
    ∀ (l1 l2 : List α), (∀ x ∈ l1, p x = true) → (l1 ++ l2).dropWhile p = l2.dropWhile p := by
  intro l1 l2 h
  induction l1 with
  | nil => rfl
  | cons c cs ih =>
    rw [List.cons_append, List.dropWhile_cons_of_pos (h c (by simp)), ih]
    intro x hx; exact h x (by simp [hx])

/-! ## `stripWs` helpers -/

theorem stripWs_of_no_ws {l : List Char} (h : ∀ x ∈ l, x.isWhitespace = false) :
    stripWs l = l := by
  unfold stripWs
  rw [dropWhile_of_all_neg h, dropWhile_of_all_neg (by intro x hx; exact h x (List.mem_reverse.mp hx)),
    List.reverse_reverse]

theorem mem_stripWs_or {x : Char} {l : List Char} (h : x ∈ l) :
    x ∈ stripWs l ∨ x.isWhitespace = true := by
  unfold stripWs
  rcases mem_dropWhile_or (p := Char.isWhitespace) h with h1 | h1
  · rcases mem_dropWhile_or (p := Char.isWhitespace) (List.mem_reverse.mpr h1) with h2 | h2
    · left; exact List.mem_reverse.mpr h2
    · right; exact h2
  · right; exact h1

/-! ## Instruction string helpers -/

theorem arrow_data : (" <- " : String).data = ' ' :: '<' :: '-' :: ' ' :: [] := rfl

theorem instr_data (d rest : String) :
    (d ++ " <- " ++ rest).data = d.data ++ (' ' :: '<' :: '-' :: ' ' :: rest.data) := by
  simp [String.data_append]

/-- The destination of `d ++ " <- " ++ rest` is `d` when `d` contains no
space. -/
theorem instrDest_mk (d rest : String) (h : ∀ c ∈ d.data, (c != ' ') = true) :
    instrDest (d ++ " <- " ++ rest) = d := by
  unfold instrDest
  rw [instr_data, takeWhile_append_left _ _ h, List.takeWhile_cons_of_neg (by decide)]
  rw [List.append_nil]

/-- The source field of `d ++ " <- " ++ rest` is `rest` (as words) when `d`
contains no space. -/
theorem instrSrcs_mk (d rest : String) (h : ∀ c ∈ d.data, (c != ' ') = true) :
    instrSrcs (d ++ " <- " ++ rest) = splitWords rest.data := by
  unfold instrSrcs
  rw [instr_data, dropWhile_append_left _ _ h, List.dropWhile_cons_of_neg (by decide)]
  rfl

theorem str_assoc (a b c : String) : a ++ b ++ c = a ++ (b ++ c) := by
  apply String.ext
  simp [String.data_append]

/-- Reassociating a three-source instruction to expose the `" <- "` marker. -/
theorem combine_eq (d a b c : String) :
    d ++ " <- " ++ a ++ " " ++ b ++ " " ++ c =
      d ++ " <- " ++ (a ++ " " ++ b ++ " " ++ c) := by
  simp only [str_assoc]

theorem instrDest_combine (d a b c : String) (hd : ∀ x ∈ d.data, (x != ' ') = true) :
    instrDest (d ++ " <- " ++ a ++ " " ++ b ++ " " ++ c) = d := by
  rw [combine_eq, instrDest_mk _ _ hd]

/-! ## `splitWords` helpers -/

theorem splitWords_cons_space (cs : List Char) : splitWords (' ' :: cs) = splitWords cs := by
  rw [splitWords]
  simp

theorem splitWords_word (l1 rest : List Char) (h1 : l1 ≠ [])
    (h : ∀ c ∈ l1, (c != ' ') = true) :
    splitWords (l1 ++ ' ' :: rest) = String.mk l1 :: splitWords rest := by
  cases l1 with
  | nil => exact absurd rfl h1
  | cons c cs =>
    rw [List.cons_append, splitWords]
    have hc : (c == ' ') = false := by
      have := h c (by simp)
      simp only [bne_iff_ne, ne_eq, decide_eq_true_eq] at this
      simp [this]
    rw [if_neg (by simp [hc])]
    rw [takeWhile_append_left _ _ (fun x hx => h x (by simp [hx])),
      List.takeWhile_cons_of_neg (by decide),
      dropWhile_append_left _ _ (fun x hx => h x (by simp [hx])),
      List.dropWhile_cons_of_neg (by decide), splitWords_cons_space, List.append_nil]

theorem splitWords_single (l : List Char) (h1 : l ≠ [])
    (h : ∀ c ∈ l, (c != ' ') = true) :
    splitWords l = [String.mk l] := by
  cases l with
  | nil => exact absurd rfl h1
  | cons c cs =>
    rw [splitWords]
    have hc : (c == ' ') = false := by
      have := h c (by simp)
      simp only [bne_iff_ne, ne_eq, decide_eq_true_eq] at this
      simp [this]
    rw [if_neg (by simp [hc])]
    rw [List.takeWhile_eq_self_iff.mpr (fun x hx => h x (by simp [hx])),
      List.dropWhile_eq_nil_iff.mpr (fun x hx => h x (by simp [hx]))]
    simp [splitWords]

/-- Every character of every word of `splitWords l` is a character of `l`. -/
theorem mem_splitWords_sub :
    ∀ (l : List Char) (w : String), w ∈ splitWords l → ∀ c ∈ w.data, c ∈ l := by
  intro l
  induction l using splitWords.induct with
  | case1 => intro w hw; simp [splitWords] at hw
  | case2 c cs hc ih =>
    intro w hw x hx
    rw [splitWords, if_pos (by simp [hc])] at hw
    have := ih w hw x hx
    simp [this]
  | case3 c cs hc ih =>
    intro w hw x hx
    rw [splitWords, if_neg (by simpa using hc)] at hw
    rcases List.mem_cons.mp hw with rfl | hmem
    · rcases List.mem_cons.mp hx with rfl | hmem2
      · simp
      · right
        exact List.takeWhile_subset _ hmem2
    · have := ih w hmem x hx
      right
      exact List.dropWhile_subset _ this

/-! ## Decimal representation (`Nat.repr`) facts -/

theorem toDigitsCore_append (b : Nat) :
    ∀ (f n : Nat) (ds : List Char),
      Nat.toDigitsCore b f n ds = Nat.toDigitsCore b f n [] ++ ds := by
  intro f
  induction f with
  | zero => intro n ds; simp [Nat.toDigitsCore]
  | succ f ih =>
    intro n ds
    simp only [Nat.toDigitsCore]
    by_cases h : n / b = 0
    · simp [h]
    · rw [if_neg h, if_neg h, ih (n / b) (Nat.digitChar (n % b) :: ds),
        ih (n / b) [Nat.digitChar (n % b)], List.append_assoc]
      rfl

theorem digitChar_isDigit {m : Nat} (h : m < 10) : (Nat.digitChar m).isDigit = true := by
  interval_cases m <;> decide

theorem digitChar_toNat {m : Nat} (h : m < 10) : (Nat.digitChar m).toNat = 48 + m := by
  interval_cases m <;> decide

theorem toDigitsCore_digits :
    ∀ (f n : Nat) (ds : List Char), (∀ c ∈ ds, c.isDigit = true) →
      ∀ c ∈ Nat.toDigitsCore 10 f n ds, c.isDigit = true := by
  intro f
  induction f with
  | zero => intro n ds h; simpa [Nat.toDigitsCore] using h
  | succ f ih =>
    intro n ds h c hc
    simp only [Nat.toDigitsCore] at hc
    have hd : (Nat.digitChar (n % 10)).isDigit = true :=
      digitChar_isDigit (Nat.mod_lt _ (by norm_num))
    by_cases hz : n / 10 = 0
    · rw [if_pos hz] at hc
      rcases List.mem_cons.mp hc with rfl | hmem
      · exact hd
      · exact h c hmem
    · rw [if_neg hz] at hc
      refine ih (n / 10) _ ?_ c hc
      intro x hx
      rcases List.mem_cons.mp hx with rfl | hmem
      · exact hd
      · exact h x hmem

/-- Every character of the decimal representation of a natural number is a
digit. -/
theorem repr_digits (n : Nat) : ∀ c ∈ (Nat.repr n).data, c.isDigit = true := by
  intro c hc
  exact toDigitsCore_digits (n + 1) n [] (by simp) c hc

/-- The decimal representation is nonempty. -/
theorem repr_ne_nil (n : Nat) : (Nat.repr n).data ≠ [] := by
  show Nat.toDigitsCore 10 (n + 1) n [] ≠ []
  simp only [Nat.toDigitsCore]
  by_cases h : n / 10 = 0
  · simp [h]
  · rw [if_neg h, toDigitsCore_append]
    simp

/-- Decimal valuation of a digit list. -/
def digitsVal (l : List Char) : Nat :=
  l.foldl (fun acc c => 10 * acc + (c.toNat - 48)) 0

theorem digitsVal_append_one (l : List Char) (c : Char) :
    digitsVal (l ++ [c]) = 10 * digitsVal l + (c.toNat - 48) := by
  unfold digitsVal
  rw [List.foldl_append]
  rfl

theorem toDigitsCore_val :
    ∀ (f n : Nat), n < 10 ^ f → digitsVal (Nat.toDigitsCore 10 f n []) = n := by
  intro f
  induction f with
  | zero =>
    intro n hn
    interval_cases n
    rfl
  | succ f ih =>
    intro n hn
    simp only [Nat.toDigitsCore]
    by_cases h : n / 10 = 0
    · rw [if_pos h]
      have hlt : n < 10 := by omega
      have : digitsVal [Nat.digitChar (n % 10)] = (Nat.digitChar (n % 10)).toNat - 48 := by
        unfold digitsVal; simp
      rw [this, digitChar_toNat (Nat.mod_lt _ (by norm_num))]
      omega
    · rw [if_neg h, toDigitsCore_append, digitsVal_append_one]
      have hdiv : n / 10 < 10 ^ f := by
        rw [Nat.div_lt_iff_lt_mul (by norm_num)]
        calc n < 10 ^ (f + 1) := hn
        _ = 10 ^ f * 10 := by ring
      rw [ih (n / 10) hdiv, digitChar_toNat (Nat.mod_lt _ (by norm_num))]
      omega

/-- Decimal valuation inverts `Nat.repr`. -/
theorem repr_val (n : Nat) : digitsVal (Nat.repr n).data = n := by
  have h : n < 10 ^ (n + 1) := by
    calc n < n + 1 := Nat.lt_succ_self n
    _ < 10 ^ (n + 1) := Nat.lt_pow_self (by norm_num) (n + 1)
  exact toDigitsCore_val (n + 1) n h

theorem repr_injective {m n : Nat} (h : Nat.repr m = Nat.repr n) : m = n := by
  have := repr_val m
  rw [h, repr_val] at this
  omega

/-! ## `regName` facts -/

theorem regName_data (n : Nat) : (regName n).data = 'R' :: (Nat.repr n).data := by
  unfold regName
  show ("R" ++ Nat.repr n).data = _
  simp [String.data_append]

theorem regName_inj {m n : Nat} (h : regName m = regName n) : m = n := by
  have hd := congrArg String.data h
  rw [regName_data, regName_data] at hd
  exact repr_injective (String.ext (List.cons_injective hd))

theorem regName_word (n : Nat) : ∀ c ∈ (regName n).data, isWordChar c = true := by
  intro c hc
  rw [regName_data] at hc
  rcases List.mem_cons.mp hc with rfl | hmem
  · decide
  · exact digit_isWordChar (repr_digits n c hmem)

theorem regName_no_space (n : Nat) : ∀ c ∈ (regName n).data, (c != ' ') = true := by
  intro c hc
  exact word_ne_space (regName_word n c hc)

theorem regName_ne_nil (n : Nat) : (regName n).data ≠ [] := by
  rw [regName_data]
  simp

theorem isRegisterName_regName (n : Nat) : isRegisterName (regName n) = true := by
  have h2 := repr_digits n
  unfold isRegisterName
  rw [regName_data]
  cases hd : (Nat.repr n).data with
  | nil => exact absurd hd (repr_ne_nil n)
  | cons d ds =>
    rw [hd] at h2
    simp only [List.isEmpty_cons, Bool.not_false, beq_self_eq_true, Bool.and_self,
      Bool.true_and, List.all_eq_true]
    exact fun x hx => h2 x (by simp [hx])

/-! ## Token shape -/

/-- Every token produced by the scanner is a nonempty digit run, a word run
whose first character is a non-digit word character, or a single operator
character. -/
theorem scanTokens_shape :
    ∀ (l : List Char) (t : String), t ∈ scanTokens l →
      (t.data ≠ [] ∧ (∀ c ∈ t.data, c.isDigit = true)) ∨
      (∃ c cs, t.data = c :: cs ∧ isWordChar c = true ∧ c.isDigit = false ∧
        ∀ x ∈ cs, isWordChar x = true) ∨
      (∃ c, t.data = [c] ∧ isOpChar c = true) := by
  intro l
  induction l using scanTokens.induct with
  | case1 => intro t ht; simp [scanTokens] at ht
  | case2 c cs hc ih =>
    intro t ht
    rw [scanTokens, if_pos hc] at ht
    rcases List.mem_cons.mp ht with rfl | hmem
    · left
      refine ⟨by simp, ?_⟩
      intro x hx
      rcases List.mem_cons.mp hx with rfl | h2
      · exact hc
      · exact List.mem_takeWhile_imp h2
    · exact ih t hmem
  | case3 c cs hc hw ih =>
    intro t ht
    rw [scanTokens, if_neg hc, if_pos hw] at ht
    rcases List.mem_cons.mp ht with rfl | hmem
    · right; left
      exact ⟨c, _, rfl, hw, by simpa using hc, fun x hx => List.mem_takeWhile_imp hx⟩
    · exact ih t hmem
  | case4 c cs hc hw hop ih =>
    intro t ht
    rw [scanTokens, if_neg hc, if_neg hw, if_pos hop] at ht
    rcases List.mem_cons.mp ht with rfl | hmem
    · right; right; exact ⟨c, rfl, hop⟩
    · exact ih t hmem
  | case5 c cs hc hw hop ih =>
    intro t ht
    rw [scanTokens, if_neg hc, if_neg hw, if_neg hop] at ht
    exact ih t ht

/-! ## Character content of accepted operands -/

theorem intDigitTail_chars :
    ∀ l, intDigitTail l = true → ∀ c ∈ l, c.isDigit = true ∨ c = '_' := by
  intro l
  induction l using intDigitTail.induct with
  | case1 => intro _ c hc; simp at hc
  | case2 => intro h; simp [intDigitTail] at h
  | case3 d rest ih =>
    intro h c hc
    rw [intDigitTail, Bool.and_eq_true] at h
    rcases List.mem_cons.mp hc with rfl | hc2
    · right; rfl
    · rcases List.mem_cons.mp hc2 with rfl | hc3
      · left; exact h.1
      · exact ih h.2 c hc3
  | case4 d rest h1 h2 ih =>
    intro h c hc
    rw [intDigitTail.eq_4 d rest h1 h2, Bool.and_eq_true] at h
    rcases List.mem_cons.mp hc with rfl | hc2
    · left; exact h.1
    · exact ih h.2 c hc2

theorem pyIntCore_chars :
    ∀ l, pyIntCore l = true → ∀ c ∈ l, c.isDigit = true ∨ c = '_' := by
  intro l h c hc
  cases l with
  | nil => simp at hc
  | cons d rest =>
    rw [pyIntCore, Bool.and_eq_true] at h
    rcases List.mem_cons.mp hc with rfl | hc2
    · left; exact h.1
    · exact intDigitTail_chars rest h.2 c hc2

theorem pyIntSigned_chars :
    ∀ l, pyIntSigned l = true → ∀ c ∈ l, c = '+' ∨ c = '-' ∨ c.isDigit = true ∨ c = '_' := by
  intro l h c hc
  rw [pyIntSigned.eq_def] at h
  split at h
  · rename_i rest
    rcases List.mem_cons.mp hc with rfl | hc2
    · left; rfl
    · rcases pyIntCore_chars rest h c hc2 with h3 | h3
      · right; right; left; exact h3
      · right; right; right; exact h3
  · rename_i rest
    rcases List.mem_cons.mp hc with rfl | hc2
    · right; left; rfl
    · rcases pyIntCore_chars rest h c hc2 with h3 | h3
      · right; right; left; exact h3
      · right; right; right; exact h3
  · rcases pyIntCore_chars l h c hc with h3 | h3
    · right; right; left; exact h3
    · right; right; right; exact h3

/-- Characters of a string accepted by `int(...)`. -/
theorem is_number_chars {t : String} (h : is_number t = true) :
    ∀ c ∈ t.data, c.isWhitespace = true ∨ c = '+' ∨ c = '-' ∨ c.isDigit = true ∨ c = '_' := by
  intro c hc
  unfold is_number at h
  rcases mem_stripWs_or hc with h1 | h1
  · right; exact pyIntSigned_chars _ h c h1
  · left; exact h1

/-- A string accepted by `int(...)` does not contain the letter `R`. -/
theorem is_number_no_R {t : String} (h : is_number t = true) : 'R' ∉ t.data := by
  intro hmem
  rcases is_number_chars h 'R' hmem with h1 | h1 | h1 | h1 | h1 <;> exact absurd h1 (by decide)

/-- No word of an accepted operand is a register name: an `int(...)`-parsable
operand contains no `R`, and a purely alphabetic operand contains no digit. -/
theorem operand_words_not_reg {t : String} (h : (is_number t || pyIsAlpha t) = true) :
    ∀ w ∈ splitWords t.data, isRegisterName w = false := by
  intro w hw
  by_contra hr
  rw [Bool.not_eq_false] at hr
  unfold isRegisterName at hr
  cases hwd : w.data with
  | nil => rw [hwd] at hr; simp at hr
  | cons c ds =>
    rw [hwd] at hr
    simp only [Bool.and_eq_true, beq_iff_eq, List.all_eq_true] at hr
    obtain ⟨⟨hcR, hds⟩, hall⟩ := hr
    subst hcR
    rw [Bool.or_eq_true] at h
    rcases h with hnum | halpha
    · have hcR : 'R' ∈ t.data := mem_splitWords_sub _ w hw 'R' (by simp [hwd])
      exact absurd hcR (is_number_no_R hnum)
    · cases ds with
      | nil => simp at hds
      | cons d ds2 =>
        have hd : d ∈ t.data := mem_splitWords_sub _ w hw d (by simp [hwd])
        unfold pyIsAlpha at halpha
        rw [Bool.and_eq_true, List.all_eq_true] at halpha
        have h1 : d.isAlpha = true := halpha.2 d hd
        have h2 : d.isDigit = true := hall d (by simp)
        rw [digit_not_alpha h2] at h1
        exact Bool.false_ne_true h1

/-- Reducing `pyIntSigned` on a list whose head is not a sign. -/
theorem pyIntSigned_cons {c : Char} {rest : List Char} (h1 : c ≠ '+') (h2 : c ≠ '-') :
    pyIntSigned (c :: rest) = pyIntCore (c :: rest) := by
  rcases List.cons_ne_nil c rest with _
  rw [pyIntSigned.eq_3]
  · intro r heq; rw [List.cons.injEq] at heq; exact h1 heq.1
  · intro r heq; rw [List.cons.injEq] at heq; exact h2 heq.1

/-- A token containing an underscore passes neither operand test: it cannot
be parsed by `int(...)` and is not purely alphabetic. -/
theorem underscore_token_invalid :
    ∀ (l : List Char) (t : String), t ∈ scanTokens l → '_' ∈ t.data →
      is_number t = false ∧ pyIsAlpha t = false := by
  intro l t ht hu
  rcases scanTokens_shape l t ht with ⟨_, hdig⟩ | ⟨c, cs, hdata, hword, hcd, hcs⟩ | ⟨c, hdata, hop⟩
  · exact absurd (hdig '_' hu) (by decide)
  · have hwordall : ∀ x ∈ t.data, isWordChar x = true := by
      intro x hx
      rw [hdata] at hx
      rcases List.mem_cons.mp hx with rfl | hx2
      · exact hword
      · exact hcs x hx2
    constructor
    · unfold is_number
      rw [stripWs_of_no_ws (fun x hx => word_not_ws (hwordall x hx)), hdata]
      have hplus : c ≠ '+' := by
        intro hc; subst hc; exact absurd hword (by decide)
      have hminus : c ≠ '-' := by
        intro hc; subst hc; exact absurd hword (by decide)
      rw [pyIntSigned_cons hplus hminus, pyIntCore, hcd, Bool.false_and]
    · unfold pyIsAlpha
      rw [Bool.and_eq_false_iff]
      right
      rw [List.all_eq_false]
      refine ⟨'_', hu, by decide⟩
  · rw [hdata] at hu
    rcases List.mem_cons.mp hu with rfl | h2
    · exact absurd hop (by decide)
    · simp at h2

/-! ## Non-empty error strings -/

theorem str_append_ne_empty (x y : String) (h : x.data ≠ []) : x ++ y ≠ "" := by
  intro heq
  have hd : (x ++ y).data = [] := by rw [heq]
  rw [String.data_append] at hd
  exact h (List.append_eq_nil.mp hd).1

/-! ## Unfolding equations for `convertLoop` -/

theorem convertLoop_nil (vname : String) (self : RTLConverter) (cur : String) (pos : Nat) :
    convertLoop vname self cur pos [] =
      (self.rtl_instructions ++ [vname ++ " <- " ++ cur], "") := by
  rw [convertLoop]

theorem convertLoop_not_op (vname : String) (self : RTLConverter) (cur : String) (pos : Nat)
    (tok : String) (rest : List String) (h : is_operator tok = false) :
    convertLoop vname self cur pos (tok :: rest) =
      ([], "Error: Expected operator at position " ++ toString pos) := by
  rw [convertLoop.eq_def]
  simp [h]

theorem convertLoop_missing (vname : String) (self : RTLConverter) (cur : String) (pos : Nat)
    (tok : String) (h : is_operator tok = true) :
    convertLoop vname self cur pos [tok] =
      ([], "Error: Missing operand after operator") := by
  rw [convertLoop.eq_def]
  simp [h]

theorem convertLoop_bad_operand (vname : String) (self : RTLConverter) (cur : String)
    (pos : Nat) (tok operand : String) (rest2 : List String)
    (h : is_operator tok = true) (h2 : (is_number operand || pyIsAlpha operand) = false) :
    convertLoop vname self cur pos (tok :: operand :: rest2) =
      ([], "Error: Expected number or variable at position " ++ toString (pos + 1)) := by
  rw [convertLoop.eq_def]
  simp [h, h2]

theorem convertLoop_step (vname : String) (self : RTLConverter) (cur : String)
    (pos : Nat) (tok operand : String) (rest2 : List String)
    (h : is_operator tok = true) (h2 : (is_number operand || pyIsAlpha operand) = true) :
    convertLoop vname self cur pos (tok :: operand :: rest2) =
      convertLoop vname
        ⟨self.register_counter + 2,
         self.rtl_instructions ++
           [regName self.register_counter ++ " <- " ++ operand,
            regName (self.register_counter + 1) ++ " <- " ++ cur ++ " " ++ tok ++ " " ++
              regName self.register_counter]⟩
        (regName (self.register_counter + 1)) (pos + 2) rest2 := by
  rw [convertLoop.eq_def]
  simp [h, h2]

/-! ## The success/failure shape of the loop -/

/-- On success the loop consumes an even number of tokens and appends one
instruction per token plus a final one; on failure it returns the empty
list and a nonempty message. -/
theorem convertLoop_spec (vname : String) :
    ∀ (self : RTLConverter) (cur : String) (pos : Nat) (ts : List String),
      ((convertLoop vname self cur pos ts).2 = "" ∧
        (convertLoop vname self cur pos ts).1.length =
          self.rtl_instructions.length + ts.length + 1 ∧
        ts.length % 2 = 0) ∨
      ((convertLoop vname self cur pos ts).2 ≠ "" ∧
        (convertLoop vname self cur pos ts).1 = []) := by
  have main : ∀ (N : Nat) (ts : List String), ts.length ≤ N →
      ∀ (self : RTLConverter) (cur : String) (pos : Nat),
      ((convertLoop vname self cur pos ts).2 = "" ∧
        (convertLoop vname self cur pos ts).1.length =
          self.rtl_instructions.length + ts.length + 1 ∧
        ts.length % 2 = 0) ∨
      ((convertLoop vname self cur pos ts).2 ≠ "" ∧
        (convertLoop vname self cur pos ts).1 = []) := by
    intro N
    induction N with
    | zero =>
      intro ts hts self cur pos
      rw [List.length_eq_zero.mp (Nat.le_zero.mp hts), convertLoop_nil]
      left
      simp
    | succ N ih =>
      intro ts hts self cur pos
      match ts with
      | [] =>
        rw [convertLoop_nil]
        left
        simp
      | [tok] =>
        by_cases hop : is_operator tok = true
        · rw [convertLoop_missing vname self cur pos tok hop]
          right
          exact ⟨by decide, rfl⟩
        · rw [convertLoop_not_op vname self cur pos tok []
            (Bool.not_eq_true _ ▸ hop)]
          right
          exact ⟨str_append_ne_empty _ _ (by decide), rfl⟩
      | tok :: operand :: rest2 =>
        by_cases hop : is_operator tok = true
        · by_cases hvalid : (is_number operand || pyIsAlpha operand) = true
          · rw [convertLoop_step vname self cur pos tok operand rest2 hop hvalid]
            have hlen : rest2.length ≤ N := by
              simp only [List.length_cons] at hts
              omega
            rcases ih rest2 hlen _ (regName (self.register_counter + 1)) (pos + 2) with
              ⟨e1, e2, e3⟩ | ⟨e1, e2⟩
            · left
              refine ⟨e1, ?_, ?_⟩
              · rw [e2]
                simp only [List.length_append, List.length_cons, List.length_nil]
                omega
              · simp only [List.length_cons]
                omega
            · right
              exact ⟨e1, e2⟩
          · rw [convertLoop_bad_operand vname self cur pos tok operand rest2 hop
              (Bool.not_eq_true _ ▸ hvalid)]
            right
            exact ⟨str_append_ne_empty _ _ (by decide), rfl⟩
        · rw [convertLoop_not_op vname self cur pos tok (operand :: rest2)
            (Bool.not_eq_true _ ▸ hop)]
          right
          exact ⟨str_append_ne_empty _ _ (by decide), rfl⟩
  intro self cur pos ts
  exact main ts.length ts le_rfl self cur pos

/-! ## Destinations of the emitted instructions -/

/-- If the loop starts from a buffer whose `j`-th instruction has
destination `R(j+1)` and a counter one past the buffer length, then on
success every instruction except the last has destination `R(j+1)`. -/
theorem convertLoop_dests (vname : String) :
    ∀ (N : Nat) (ts : List String), ts.length ≤ N →
    ∀ (self : RTLConverter) (cur : String) (pos : Nat) (instrs : List String),
      convertLoop vname self cur pos ts = (instrs, "") →
      self.register_counter = self.rtl_instructions.length + 1 →
      (∀ j (hj : j < self.rtl_instructions.length),
        instrDest (self.rtl_instructions.get ⟨j, hj⟩) = regName (j + 1)) →
      ∀ j (hj : j + 1 < instrs.length),
        instrDest (instrs.get ⟨j, Nat.lt_of_succ_lt hj⟩) = regName (j + 1) := by
  intro N
  induction N with
  | zero =>
    intro ts hts self cur pos instrs heq hcount hdests j hj
    rw [List.length_eq_zero.mp (Nat.le_zero.mp hts), convertLoop_nil] at heq
    obtain ⟨rfl, -⟩ := Prod.mk.injEq .. ▸ heq
    simp only [List.length_append, List.length_cons, List.length_nil] at hj
    have hjlt : j < self.rtl_instructions.length := by omega
    rw [List.get_eq_getElem, List.getElem_append_left hjlt]
    exact hdests j hjlt
  | succ N ih =>
    intro ts hts self cur pos instrs heq hcount hdests j hj
    match ts with
    | [] =>
      rw [convertLoop_nil] at heq
      obtain ⟨rfl, -⟩ := Prod.mk.injEq .. ▸ heq
      simp only [List.length_append, List.length_cons, List.length_nil] at hj
      have hjlt : j < self.rtl_instructions.length := by omega
      rw [List.get_eq_getElem, List.getElem_append_left hjlt]
      exact hdests j hjlt
    | [tok] =>
      by_cases hop : is_operator tok = true
      · rw [convertLoop_missing vname self cur pos tok hop] at heq
        exact absurd (show ("Error: Missing operand after operator" : String) = "" from
          congrArg Prod.snd heq) (by decide)
      · rw [convertLoop_not_op vname self cur pos tok [] (Bool.not_eq_true _ ▸ hop)] at heq
        exact absurd (show ("Error: Expected operator at position " ++ toString pos) = "" from
          congrArg Prod.snd heq) (str_append_ne_empty _ _ (by decide))
    | tok :: operand :: rest2 =>
      by_cases hop : is_operator tok = true
      · by_cases hvalid : (is_number operand || pyIsAlpha operand) = true
        · rw [convertLoop_step vname self cur pos tok operand rest2 hop hvalid] at heq
          have hlen : rest2.length ≤ N := by
            simp only [List.length_cons] at hts
            omega
          refine ih rest2 hlen _ _ _ instrs heq ?_ ?_ j hj
          · simp only [List.length_append, List.length_cons, List.length_nil]
            omega
          · intro k hk
            simp only [List.length_append, List.length_cons, List.length_nil] at hk
            by_cases hk1 : k < self.rtl_instructions.length
            · rw [List.get_eq_getElem, List.getElem_append_left hk1]
              exact hdests k hk1
            · rw [List.get_eq_getElem,
                List.getElem_append_right (by omega : self.rtl_instructions.length ≤ k)]
              by_cases hk2 : k = self.rtl_instructions.length
              · have h0 : k - self.rtl_instructions.length = 0 := by omega
                simp only [h0, List.getElem_cons_zero]
                rw [instrDest_mk _ _ (regName_no_space _), hcount, hk2]
              · have h1 : k - self.rtl_instructions.length = 1 := by omega
                simp only [h1, List.getElem_cons_succ, List.getElem_cons_zero]
                rw [instrDest_combine _ _ _ _ (regName_no_space _), hcount]
                congr 1
                omega
        · rw [convertLoop_bad_operand vname self cur pos tok operand rest2 hop
            (Bool.not_eq_true _ ▸ hvalid)] at heq
          exact absurd
            (show ("Error: Expected number or variable at position " ++ toString (pos + 1)) = ""
              from congrArg Prod.snd heq) (str_append_ne_empty _ _ (by decide))
      · rw [convertLoop_not_op vname self cur pos tok (operand :: rest2)
          (Bool.not_eq_true _ ▸ hop)] at heq
        exact absurd (show ("Error: Expected operator at position " ++ toString pos) = "" from
          congrArg Prod.snd heq) (str_append_ne_empty _ _ (by decide))

/-! ## Reads-after-writes -/

/-- Every register-named source of an instruction was the destination of a
strictly earlier instruction in the list. -/
def readsAfterWrites (l : List String) : Prop :=
  ∀ i, (hi : i < l.length) → ∀ s ∈ instrSrcs (l.get ⟨i, hi⟩), isRegisterName s = true →
    s ∈ (l.take i).map instrDest

theorem is_operator_cases {t : String} (h : is_operator t = true) :
    t = "+" ∨ t = "-" ∨ t = "*" ∨ t = "/" := by
  unfold is_operator at h
  simp only [Bool.or_eq_true, beq_iff_eq] at h
  tauto

theorem op_ne_nil {t : String} (h : is_operator t = true) : t.data ≠ [] := by
  rcases is_operator_cases h with rfl | rfl | rfl | rfl <;> decide

theorem op_no_space {t : String} (h : is_operator t = true) :
    ∀ c ∈ t.data, (c != ' ') = true := by
  rcases is_operator_cases h with rfl | rfl | rfl | rfl <;> decide

theorem op_not_reg {t : String} (h : is_operator t = true) : isRegisterName t = false := by
  rcases is_operator_cases h with rfl | rfl | rfl | rfl <;> decide

theorem instrSrcs_combine (d a b c : String)
    (hd : ∀ x ∈ d.data, (x != ' ') = true)
    (ha1 : a.data ≠ []) (ha2 : ∀ x ∈ a.data, (x != ' ') = true)
    (hb1 : b.data ≠ []) (hb2 : ∀ x ∈ b.data, (x != ' ') = true)
    (hc1 : c.data ≠ []) (hc2 : ∀ x ∈ c.data, (x != ' ') = true) :
    instrSrcs (d ++ " <- " ++ a ++ " " ++ b ++ " " ++ c) = [a, b, c] := by
  rw [combine_eq, instrSrcs_mk _ _ hd]
  have hdata : (a ++ " " ++ b ++ " " ++ c).data =
      a.data ++ ' ' :: (b.data ++ ' ' :: c.data) := by
    simp [String.data_append]
  rw [hdata, splitWords_word _ _ ha1 ha2, splitWords_word _ _ hb1 hb2,
    splitWords_single _ hc1 hc2]

/-- Extending a reads-after-writes list with new instructions whose
register sources are all covered. -/
theorem raw_append (l news : List String) (hl : readsAfterWrites l)
    (hnew : ∀ k, (hk : k < news.length) →
      ∀ s ∈ instrSrcs (news.get ⟨k, hk⟩), isRegisterName s = true →
        s ∈ (l ++ news.take k).map instrDest) :
    readsAfterWrites (l ++ news) := by
  intro i hi s hs hreg
  by_cases hil : i < l.length
  · rw [List.get_eq_getElem, List.getElem_append_left hil] at hs
    rw [List.take_append_of_le_length (Nat.le_of_lt hil)]
    exact hl i hil s hs hreg
  · have hlen : l.length ≤ i := Nat.le_of_not_lt hil
    have hk : i - l.length < news.length := by
      simp only [List.length_append] at hi
      omega
    rw [List.get_eq_getElem, List.getElem_append_right hlen] at hs
    have htake : (l ++ news).take i = l ++ news.take (i - l.length) := by
      rw [List.take_append_eq_append_take, List.take_of_length_le hlen]
    rw [htake]
    exact hnew (i - l.length) hk s hs hreg

theorem raw_append_one (l : List String) (a : String) (hl : readsAfterWrites l)
    (hA : ∀ s ∈ instrSrcs a, isRegisterName s = true → s ∈ l.map instrDest) :
    readsAfterWrites (l ++ [a]) := by
  refine raw_append l [a] hl ?_
  intro k hk s hs hreg
  simp only [List.length_cons, List.length_nil] at hk
  have hk0 : k = 0 := by omega
  subst hk0
  simp only [List.get_eq_getElem, List.getElem_cons_zero] at hs
  rw [List.take_zero, List.append_nil]
  exact hA s hs hreg

theorem raw_append_two (l : List String) (a b : String) (hl : readsAfterWrites l)
    (hA : ∀ s ∈ instrSrcs a, isRegisterName s = true → s ∈ l.map instrDest)
    (hB : ∀ s ∈ instrSrcs b, isRegisterName s = true → s ∈ (l ++ [a]).map instrDest) :
    readsAfterWrites (l ++ [a, b]) := by
  refine raw_append l [a, b] hl ?_
  intro k hk s hs hreg
  simp only [List.length_cons, List.length_nil] at hk
  match k, hk with
  | 0, _ =>
    simp only [List.get_eq_getElem, List.getElem_cons_zero] at hs
    rw [List.take_zero, List.append_nil]
    exact hA s hs hreg
  | 1, _ =>
    simp only [List.get_eq_getElem, List.getElem_cons_succ, List.getElem_cons_zero] at hs
    have ht : List.take 1 [a, b] = [a] := rfl
    rw [ht]
    exact hB s hs hreg

/-- On success, if the incoming buffer reads after writes and the
accumulator is an earlier destination, then the full output reads after
writes. -/
theorem convertLoop_raw (vname : String) (hv : ∀ c ∈ vname.data, (c != ' ') = true) :
    ∀ (N : Nat) (ts : List String), ts.length ≤ N →
    ∀ (self : RTLConverter) (cur : String) (pos : Nat) (instrs : List String),
      convertLoop vname self cur pos ts = (instrs, "") →
      readsAfterWrites self.rtl_instructions →
      cur ∈ self.rtl_instructions.map instrDest →
      (∀ c ∈ cur.data, (c != ' ') = true) →
      cur.data ≠ [] →
      readsAfterWrites instrs := by
  intro N
  induction N with
  | zero =>
    intro ts hts self cur pos instrs heq hraw hcur hcns hcne
    rw [List.length_eq_zero.mp (Nat.le_zero.mp hts), convertLoop_nil] at heq
    obtain ⟨rfl, -⟩ := Prod.mk.injEq .. ▸ heq
    refine raw_append_one _ _ hraw ?_
    intro s hs hreg
    rw [instrSrcs_mk _ _ hv, splitWords_single _ hcne hcns] at hs
    rcases List.mem_singleton.mp hs with rfl
    exact hcur
  | succ N ih =>
    intro ts hts self cur pos instrs heq hraw hcur hcns hcne
    match ts with
    | [] =>
      rw [convertLoop_nil] at heq
      obtain ⟨rfl, -⟩ := Prod.mk.injEq .. ▸ heq
      refine raw_append_one _ _ hraw ?_
      intro s hs hreg
      rw [instrSrcs_mk _ _ hv, splitWords_single _ hcne hcns] at hs
      rcases List.mem_singleton.mp hs with rfl
      exact hcur
    | [tok] =>
      by_cases hop : is_operator tok = true
      · rw [convertLoop_missing vname self cur pos tok hop] at heq
        exact absurd (show ("Error: Missing operand after operator" : String) = "" from
          congrArg Prod.snd heq) (by decide)
      · rw [convertLoop_not_op vname self cur pos tok [] (Bool.not_eq_true _ ▸ hop)] at heq
        exact absurd (show ("Error: Expected operator at position " ++ toString pos) = "" from
          congrArg Prod.snd heq) (str_append_ne_empty _ _ (by decide))
    | tok :: operand :: rest2 =>
      by_cases hop : is_operator tok = true
      · by_cases hvalid : (is_number operand || pyIsAlpha operand) = true
        · rw [convertLoop_step vname self cur pos tok operand rest2 hop hvalid] at heq
          have hlen : rest2.length ≤ N := by
            simp only [List.length_cons] at hts
            omega
          refine ih rest2 hlen _ _ _ instrs heq ?_ ?_ (regName_no_space _) (regName_ne_nil _)
          · -- the extended buffer reads after writes
            refine raw_append_two _ _ _ hraw ?_ ?_
            · intro s hs hreg
              rw [instrSrcs_mk _ _ (regName_no_space _)] at hs
              rw [operand_words_not_reg hvalid s hs] at hreg
              exact absurd hreg (by decide)
            · intro s hs hreg
              rw [instrSrcs_combine _ _ _ _ (regName_no_space _) hcne hcns
                (op_ne_nil hop) (op_no_space hop) (regName_ne_nil _)
                (regName_no_space _)] at hs
              simp only [List.mem_cons, List.not_mem_nil, or_false] at hs
              rcases hs with rfl | rfl | rfl
              · -- the accumulator
                rw [List.map_append]
                exact List.mem_append_left _ hcur
              · -- the operator word is not a register name
                rw [op_not_reg hop] at hreg
                exact absurd hreg (by decide)
              · -- the operand register, written by the previous instruction
                rw [List.map_append]
                refine List.mem_append_right _ ?_
                simp only [List.map_cons, List.map_nil]
                rw [instrDest_mk _ _ (regName_no_space _)]
                simp
          · -- the new accumulator is the destination of the last new instruction
            rw [List.map_append]
            refine List.mem_append_right _ ?_
            simp only [List.map_cons, List.map_nil]
            rw [instrDest_mk _ _ (regName_no_space _),
              instrDest_combine _ _ _ _ (regName_no_space _)]
            simp
        · rw [convertLoop_bad_operand vname self cur pos tok operand rest2 hop
            (Bool.not_eq_true _ ▸ hvalid)] at heq
          exact absurd
            (show ("Error: Expected number or variable at position " ++ toString (pos + 1)) = ""
              from congrArg Prod.snd heq) (str_append_ne_empty _ _ (by decide))
      · rw [convertLoop_not_op vname self cur pos tok (operand :: rest2)
          (Bool.not_eq_true _ ▸ hop)] at heq
        exact absurd (show ("Error: Expected operator at position " ++ toString pos) = "" from
          congrArg Prod.snd heq) (str_append_ne_empty _ _ (by decide))

/-! ## Valid variable names -/

theorem var_no_space {v : String} (h : isValidVarName v = true) :
    ∀ c ∈ v.data, (c != ' ') = true := by
  intro c hc
  unfold isValidVarName at h
  cases hd : v.data with
  | nil => rw [hd] at hc; simp at hc
  | cons c0 cs =>
    rw [hd] at h hc
    simp only [Bool.and_eq_true, Bool.or_eq_true, List.all_eq_true, beq_iff_eq] at h
    rcases List.mem_cons.mp hc with rfl | hc2
    · rcases h.1 with h1 | h1
      · exact word_ne_space (alpha_isWordChar h1)
      · subst h1; decide
    · exact word_ne_space (h.2 c hc2)

/-! ## The last emitted instruction -/

theorem convertLoop_last (vname : String) :
    ∀ (N : Nat) (ts : List String), ts.length ≤ N →
    ∀ (self : RTLConverter) (cur : String) (pos : Nat) (instrs : List String),
      convertLoop vname self cur pos ts = (instrs, "") →
      instrs ≠ [] ∧ ∃ cur2, instrs.getLastD "" = vname ++ " <- " ++ cur2 := by
  intro N
  induction N with
  | zero =>
    intro ts hts self cur pos instrs heq
    rw [List.length_eq_zero.mp (Nat.le_zero.mp hts), convertLoop_nil] at heq
    obtain ⟨rfl, -⟩ := Prod.mk.injEq .. ▸ heq
    refine ⟨by simp, cur, ?_⟩
    rw [List.getLastD_concat]
  | succ N ih =>
    intro ts hts self cur pos instrs heq
    match ts with
    | [] =>
      rw [convertLoop_nil] at heq
      obtain ⟨rfl, -⟩ := Prod.mk.injEq .. ▸ heq
      refine ⟨by simp, cur, ?_⟩
      rw [List.getLastD_concat]
    | [tok] =>
      by_cases hop : is_operator tok = true
      · rw [convertLoop_missing vname self cur pos tok hop] at heq
        exact absurd (show ("Error: Missing operand after operator" : String) = "" from
          congrArg Prod.snd heq) (by decide)
      · rw [convertLoop_not_op vname self cur pos tok [] (Bool.not_eq_true _ ▸ hop)] at heq
        exact absurd (show ("Error: Expected operator at position " ++ toString pos) = "" from
          congrArg Prod.snd heq) (str_append_ne_empty _ _ (by decide))
    | tok :: operand :: rest2 =>
      by_cases hop : is_operator tok = true
      · by_cases hvalid : (is_number operand || pyIsAlpha operand) = true
        · rw [convertLoop_step vname self cur pos tok operand rest2 hop hvalid] at heq
          have hlen : rest2.length ≤ N := by
            simp only [List.length_cons] at hts
            omega
          exact ih rest2 hlen _ _ _ instrs heq
        · rw [convertLoop_bad_operand vname self cur pos tok operand rest2 hop
            (Bool.not_eq_true _ ▸ hvalid)] at heq
          exact absurd
            (show ("Error: Expected number or variable at position " ++ toString (pos + 1)) = ""
              from congrArg Prod.snd heq) (str_append_ne_empty _ _ (by decide))
      · rw [convertLoop_not_op vname self cur pos tok (operand :: rest2)
          (Bool.not_eq_true _ ▸ hop)] at heq
        exact absurd (show ("Error: Expected operator at position " ++ toString pos) = "" from
          congrArg Prod.snd heq) (str_append_ne_empty _ _ (by decide))

/-! ## Dissecting a successful conversion -/

/-- A successful conversion reaches the single-token or the multi-token
emission path, with a validated variable and a validated first operand. -/
theorem convert_success_cases (st : RTLConverter) (e : String) (instrs : List String)
    (h : st.convert_to_rtl e = (instrs, "")) :
    ∃ p0 p1, splitEq e.data = [p0, p1] ∧
      isValidVarName (String.mk (stripWs p0)) = true ∧
      ((∃ t, parse_expression (String.mk (stripWs p1)) = [t] ∧
          (is_number t || pyIsAlpha t) = true ∧
          instrs = [String.mk (stripWs p0) ++ " <- " ++ t]) ∨
       (∃ t0 t1 rest, parse_expression (String.mk (stripWs p1)) = t0 :: t1 :: rest ∧
          (is_number t0 || pyIsAlpha t0) = true ∧
          convertLoop (String.mk (stripWs p0))
            ⟨2, [regName 1 ++ " <- " ++ t0]⟩ (regName 1) 1 (t1 :: rest) =
            (instrs, ""))) := by
  unfold RTLConverter.convert_to_rtl at h
  simp only [RTLConverter.reset] at h
  cases hsp : splitEq e.data with
  | nil =>
    rw [hsp] at h
    exact absurd (show ("Error: Invalid assignment format" : String) = "" from
      congrArg Prod.snd h) (by decide)
  | cons p0 rest =>
    cases rest with
    | nil =>
      rw [hsp] at h
      exact absurd
        (show ("Error: Expression must contain an assignment (=)" : String) = "" from
        congrArg Prod.snd h) (by decide)
    | cons p1 rest2 =>
      cases rest2 with
      | cons q qs =>
        rw [hsp] at h
        exact absurd (show ("Error: Invalid assignment format" : String) = "" from
          congrArg Prod.snd h) (by decide)
      | nil =>
        rw [hsp] at h
        simp only [List.map_cons, List.map_nil] at h
        refine ⟨p0, p1, rfl, ?_⟩
        by_cases hvv : isValidVarName (String.mk (stripWs p0)) = true
        · rw [hvv] at h
          simp only [Bool.not_true, Bool.false_eq_true, if_false, ite_false] at h
          refine ⟨hvv, ?_⟩
          cases htk : parse_expression (String.mk (stripWs p1)) with
          | nil =>
            rw [htk] at h
            exact absurd (show ("Error: Empty expression" : String) = "" from
              congrArg Prod.snd h) (by decide)
          | cons t0 ts =>
            cases ts with
            | nil =>
              rw [htk] at h
              dsimp only at h
              by_cases hop : (is_number t0 || pyIsAlpha t0) = true
              · rw [hop] at h
                simp only [if_true, List.nil_append] at h
                left
                exact ⟨t0, rfl, hop, (Prod.mk.injEq .. ▸ h).1.symm⟩
              · rw [if_neg hop] at h
                exact absurd (show ("Error: Invalid single token" : String) = "" from
                  congrArg Prod.snd h) (by decide)
            | cons t1 rest =>
              rw [htk] at h
              dsimp only at h
              by_cases hop : (is_number t0 || pyIsAlpha t0) = true
              · rw [hop] at h
                simp only [if_true, List.nil_append] at h
                right
                exact ⟨t0, t1, rest, rfl, hop, h⟩
              · rw [if_neg hop] at h
                exact absurd
                  (show ("Error: Expected number or variable at position 0" : String) = ""
                    from congrArg Prod.snd h) (by decide)
        · have hvf : isValidVarName (String.mk (stripWs p0)) = false := Bool.not_eq_true _ ▸ hvv
          rw [if_pos (by rw [hvf]; rfl)] at h
          exact absurd (show ("Error: Invalid variable name" : String) = "" from
            congrArg Prod.snd h) (by decide)

/-- Every conversion returns an empty instruction list or an empty error. -/
theorem convert_shape (st : RTLConverter) (e : String) :
    (st.convert_to_rtl e).1 = [] ∨ (st.convert_to_rtl e).2 = "" := by
  unfold RTLConverter.convert_to_rtl
  simp only [RTLConverter.reset]
  cases hsp : splitEq e.data with
  | nil => left; rfl
  | cons p0 rest =>
    cases rest with
    | nil => left; rfl
    | cons p1 rest2 =>
      cases rest2 with
      | cons q qs => left; rfl
      | nil =>
        simp only [List.map_cons, List.map_nil]
        by_cases hvv : isValidVarName (String.mk (stripWs p0)) = true
        · rw [if_neg (by rw [hvv]; simp)]
          cases htk : parse_expression (String.mk (stripWs p1)) with
          | nil => left; rfl
          | cons t0 ts =>
            cases ts with
            | nil =>
              dsimp only
              by_cases hop : (is_number t0 || pyIsAlpha t0) = true
              · rw [if_pos hop]
                right; rfl
              · rw [if_neg hop]
                left; rfl
            | cons t1 rest =>
              dsimp only
              by_cases hop : (is_number t0 || pyIsAlpha t0) = true
              · rw [if_pos hop]
                rcases convertLoop_spec (String.mk (stripWs p0))
                  ⟨1 + 1, [] ++ [regName 1 ++ " <- " ++ t0]⟩ (regName 1) 1 (t1 :: rest) with
                  ⟨h1, -, -⟩ | ⟨-, h1⟩
                · right; exact h1
                · left; exact h1
              · rw [if_neg hop]
                left; rfl
        · have hvf : isValidVarName (String.mk (stripWs p0)) = false := Bool.not_eq_true _ ▸ hvv
          rw [if_pos (by rw [hvf]; rfl)]
          left; rfl

theorem rhsTokens_eq {e : String} {p0 p1 : List Char} (h : splitEq e.data = [p0, p1]) :
    rhsTokens e = parse_expression (String.mk (stripWs p1)) := by
  unfold rhsTokens
  rw [h]
  rfl

theorem lhsVar_eq {e : String} {p0 : List Char} {rest : List (List Char)}
    (h : splitEq e.data = p0 :: rest) :
    lhsVar e = String.mk (stripWs p0) := by
  unfold lhsVar
  rw [h]

/-! ## The claims -/

/-- C1: translating the input `x = 6 + 9` succeeds with an empty error
string and produces exactly the instruction sequence
`["R1 <- 6", "R2 <- 9", "R3 <- R1 + R2", "x <- R3"]`, in that order. -/
theorem C1_x_6_9 (st : RTLConverter) :
    st.convert_to_rtl "x = 6 + 9" =
      (["R1 <- 6", "R2 <- 9", "R3 <- R1 + R2", "x <- R3"], "") := by
  simp [RTLConverter.convert_to_rtl, RTLConverter.reset, convertLoop, parse_expression,
    scanTokens, splitEq, stripWs, is_number, pyIsAlpha, pyIntSigned, pyIntCore, intDigitTail,
    is_operator, isValidVarName, isWordChar, isOpChar, regName]
  decide

/-- C2: for every input that translates successfully and whose right-hand
side tokenizes to `n` operands, the returned instruction list has exactly
`2*(n-1) + 1 + 1` instructions when `n ≥ 2`, and exactly `1` instruction
when `n = 1`. -/
theorem C2_instruction_count (st : RTLConverter) (e : String) (instrs : List String)
    (n : Nat) (h : st.convert_to_rtl e = (instrs, ""))
    (hn : (rhsTokens e).length = 2 * n - 1) (hn1 : 1 ≤ n) :
    instrs.length = if n = 1 then 1 else 2 * (n - 1) + 1 + 1 := by
  obtain ⟨p0, p1, hsp, hvv, hcase⟩ := convert_success_cases st e instrs h
  rw [rhsTokens_eq hsp] at hn
  rcases hcase with ⟨t, htk, hop, rfl⟩ | ⟨t0, t1, rest, htk, hop, hloop⟩
  · rw [htk] at hn
    simp only [List.length_cons, List.length_nil] at hn
    have hone : n = 1 := by omega
    rw [if_pos hone]
    rfl
  · rw [htk] at hn
    simp only [List.length_cons] at hn
    rcases convertLoop_spec (String.mk (stripWs p0)) ⟨2, [regName 1 ++ " <- " ++ t0]⟩
      (regName 1) 1 (t1 :: rest) with ⟨h1, h2, h3⟩ | ⟨h1, h2⟩
    · rw [hloop] at h2
      simp only [List.length_cons, List.length_nil] at h2
      have hn2 : n ≠ 1 := by omega
      rw [if_neg hn2]
      omega
    · rw [hloop] at h1
      exact absurd rfl h1

/-- C2 witness: `x = 6 + 9` has 2 operands and 4 instructions. -/
theorem C2_witness :
    (RTLConverter.convert_to_rtl ⟨1, []⟩ "x = 6 + 9").1.length =
      if 2 = 1 then 1 else 2 * (2 - 1) + 1 + 1 := by
  have hc : RTLConverter.convert_to_rtl ⟨1, []⟩ "x = 6 + 9" =
      (["R1 <- 6", "R2 <- 9", "R3 <- R1 + R2", "x <- R3"], "") := by
    simp [RTLConverter.convert_to_rtl, RTLConverter.reset, convertLoop, parse_expression,
      scanTokens, splitEq, stripWs, is_number, pyIsAlpha, pyIntSigned, pyIntCore, intDigitTail,
      is_operator, isValidVarName, isWordChar, isOpChar, regName]
    decide
  have hr : (rhsTokens "x = 6 + 9").length = 2 * 2 - 1 := by
    simp [rhsTokens, splitEq, parse_expression, scanTokens, stripWs, isWordChar, isOpChar]
  rw [hc]
  exact C2_instruction_count ⟨1, []⟩ "x = 6 + 9"
    ["R1 <- 6", "R2 <- 9", "R3 <- R1 + R2", "x <- R3"] 2 hc hr (by norm_num)

/-- C3 counterexample: `x = 6 + 9` translates successfully yet produces 4
instructions, which is not odd. -/
theorem C3_counterexample :
    (RTLConverter.convert_to_rtl ⟨1, []⟩ "x = 6 + 9").2 = "" ∧
    ¬ Odd (RTLConverter.convert_to_rtl ⟨1, []⟩ "x = 6 + 9").1.length := by
  have hc : RTLConverter.convert_to_rtl ⟨1, []⟩ "x = 6 + 9" =
      (["R1 <- 6", "R2 <- 9", "R3 <- R1 + R2", "x <- R3"], "") := by
    simp [RTLConverter.convert_to_rtl, RTLConverter.reset, convertLoop, parse_expression,
      scanTokens, splitEq, stripWs, is_number, pyIsAlpha, pyIntSigned, pyIntCore, intDigitTail,
      is_operator, isValidVarName, isWordChar, isOpChar, regName]
    decide
  rw [hc]
  refine ⟨rfl, ?_⟩
  rw [Nat.odd_iff]
  decide

/-- C3 (amended): for every input that translates successfully, the number
of instructions is 1 (odd) when the right-hand side tokenizes to a single
token, and even when it tokenizes to two or more tokens. -/
theorem C3_amended_parity (st : RTLConverter) (e : String) (instrs : List String)
    (h : st.convert_to_rtl e = (instrs, "")) :
    ((rhsTokens e).length = 1 ∧ instrs.length = 1) ∨
    (2 ≤ (rhsTokens e).length ∧ instrs.length % 2 = 0) := by
  obtain ⟨p0, p1, hsp, hvv, hcase⟩ := convert_success_cases st e instrs h
  rw [rhsTokens_eq hsp]
  rcases hcase with ⟨t, htk, hop, rfl⟩ | ⟨t0, t1, rest, htk, hop, hloop⟩
  · left
    rw [htk]
    exact ⟨rfl, rfl⟩
  · right
    rw [htk]
    rcases convertLoop_spec (String.mk (stripWs p0)) ⟨2, [regName 1 ++ " <- " ++ t0]⟩
      (regName 1) 1 (t1 :: rest) with ⟨h1, h2, h3⟩ | ⟨h1, h2⟩
    · rw [hloop] at h2
      simp only [List.length_cons, List.length_nil] at h2 h3 ⊢
      constructor
      · omega
      · omega
    · rw [hloop] at h1
      exact absurd rfl h1

/-- C3 witness: `x = 6 + 9` has 3 tokens and an even instruction count. -/
theorem C3_amended_witness :
    ((rhsTokens "x = 6 + 9").length = 1 ∧
      (RTLConverter.convert_to_rtl ⟨1, []⟩ "x = 6 + 9").1.length = 1) ∨
    (2 ≤ (rhsTokens "x = 6 + 9").length ∧
      (RTLConverter.convert_to_rtl ⟨1, []⟩ "x = 6 + 9").1.length % 2 = 0) := by
  have hc : RTLConverter.convert_to_rtl ⟨1, []⟩ "x = 6 + 9" =
      (["R1 <- 6", "R2 <- 9", "R3 <- R1 + R2", "x <- R3"], "") := by
    simp [RTLConverter.convert_to_rtl, RTLConverter.reset, convertLoop, parse_expression,
      scanTokens, splitEq, stripWs, is_number, pyIsAlpha, pyIntSigned, pyIntCore, intDigitTail,
      is_operator, isValidVarName, isWordChar, isOpChar, regName]
    decide
  rw [hc]
  have hr := C3_amended_parity ⟨1, []⟩ "x = 6 + 9"
    ["R1 <- 6", "R2 <- 9", "R3 <- R1 + R2", "x <- R3"] hc
  simpa using hr

/-- C4 counterexample: the scanner splits `12ab` into a digit token and a
word token; it is not the single word token `12ab`. -/
theorem C4_counterexample :
    parse_expression "12ab" = ["12", "ab"] ∧ (["12", "ab"] : List String) ≠ ["12ab"] := by
  constructor
  · simp [parse_expression, scanTokens, isWordChar, isOpChar]
  · decide

/-- C4 (amended): the scanner tries the alternatives in order — digit run
first, then word run, then a single operator — so a token that starts with
a digit consists entirely of digits; hence `12ab` scans as `12` then `ab`,
while `ab12` is a single word token. -/
theorem C4_amended_tokenizer :
    (∀ (l : List Char) (t : String), t ∈ scanTokens l →
      ∀ (c : Char), t.data.headI = c → c.isDigit = true → ∀ x ∈ t.data, x.isDigit = true) ∧
    parse_expression "12ab" = ["12", "ab"] ∧
    parse_expression "ab12" = ["ab12"] := by
  refine ⟨?_, ?_, ?_⟩
  · intro l t ht c hhead hcd x hx
    rcases scanTokens_shape l t ht with ⟨hne, hdig⟩ | ⟨c0, cs, hdata, hword, hc0, hcs⟩ |
      ⟨c0, hdata, hop⟩
    · exact hdig x hx
    · rw [hdata] at hhead
      simp only [List.headI] at hhead
      rw [hhead] at hc0
      rw [hc0] at hcd
      exact absurd hcd (by decide)
    · rw [hdata] at hhead
      simp only [List.headI] at hhead
      have hcases : c0 = '+' ∨ c0 = '-' ∨ c0 = '*' ∨ c0 = '/' := by
        simp only [isOpChar, Bool.or_eq_true, beq_iff_eq] at hop
        tauto
      rcases hcases with rfl | rfl | rfl | rfl <;>
        · rw [← hhead] at hcd
          exact absurd hcd (by decide)
  · simp [parse_expression, scanTokens, isWordChar, isOpChar]
  · simp [parse_expression, scanTokens, isWordChar, isOpChar]

/-- C4 witness: the digit-led token `12` of `12ab` is entirely digits. -/
theorem C4_witness : ∀ x ∈ ("12" : String).data, x.isDigit = true := by
  refine C4_amended_tokenizer.1 ("12ab".data) "12" ?_ '1' rfl (by decide)
  have h := C4_amended_tokenizer.2.1
  unfold parse_expression at h
  rw [show ("12ab".data.filter (fun c => c != ' ')) = "12ab".data from by decide] at h
  rw [h]
  simp

/-- C5: every call returns exactly one populated output: on failure the
instruction list is empty and the error nonempty, on success the list is
nonempty and the error empty. -/
theorem C5_exclusive (st : RTLConverter) (e : String) :
    ((st.convert_to_rtl e).2 = "" ∧ (st.convert_to_rtl e).1 ≠ []) ∨
    ((st.convert_to_rtl e).2 ≠ "" ∧ (st.convert_to_rtl e).1 = []) := by
  by_cases h2 : (st.convert_to_rtl e).2 = ""
  · left
    refine ⟨h2, ?_⟩
    have h : st.convert_to_rtl e = ((st.convert_to_rtl e).1, "") := by
      rw [← h2]
    obtain ⟨p0, p1, hsp, hvv, hcase⟩ := convert_success_cases st e _ h
    rcases hcase with ⟨t, htk, hop, heq⟩ | ⟨t0, t1, rest, htk, hop, hloop⟩
    · rw [heq]
      simp
    · rcases convertLoop_spec (String.mk (stripWs p0)) ⟨2, [regName 1 ++ " <- " ++ t0]⟩
        (regName 1) 1 (t1 :: rest) with ⟨-, hlen, -⟩ | ⟨hne, -⟩
      · rw [hloop] at hlen
        simp only [List.length_cons, List.length_nil] at hlen
        intro hnil
        rw [hnil] at hlen
        simp at hlen
      · rw [hloop] at hne
        exact absurd rfl hne
  · right
    refine ⟨h2, ?_⟩
    rcases convert_shape st e with h1 | h1
    · exact h1
    · exact absurd h1 h2

/-- C6: within any single translation, register destinations are allocated
as `R1, R2, R3, ...` in order — strictly increasing, starting at 1, never
repeated — and the result never depends on the converter state handed in,
because the counter is reset at the start of every translation. -/
theorem C6_registers (st st2 : RTLConverter) (e : String) (instrs : List String) :
    st.convert_to_rtl e = st2.convert_to_rtl e ∧
    (st.convert_to_rtl e = (instrs, "") →
      (∀ j, (hj : j + 1 < instrs.length) →
        instrDest (instrs.get ⟨j, Nat.lt_of_succ_lt hj⟩) = regName (j + 1)) ∧
      (∀ j k, (hj : j + 1 < instrs.length) → (hk : k + 1 < instrs.length) →
        instrDest (instrs.get ⟨j, Nat.lt_of_succ_lt hj⟩) =
          instrDest (instrs.get ⟨k, Nat.lt_of_succ_lt hk⟩) → j = k)) := by
  constructor
  · rfl
  · intro h
    have hdest : ∀ j, (hj : j + 1 < instrs.length) →
        instrDest (instrs.get ⟨j, Nat.lt_of_succ_lt hj⟩) = regName (j + 1) := by
      obtain ⟨p0, p1, hsp, hvv, hcase⟩ := convert_success_cases st e instrs h
      rcases hcase with ⟨t, htk, hop, rfl⟩ | ⟨t0, t1, rest, htk, hop, hloop⟩
      · intro j hj
        simp only [List.length_cons, List.length_nil] at hj
        omega
      · intro j hj
        refine convertLoop_dests (String.mk (stripWs p0)) (t1 :: rest).length (t1 :: rest)
          le_rfl ⟨2, [regName 1 ++ " <- " ++ t0]⟩ (regName 1) 1 instrs hloop rfl ?_ j hj
        intro k hk
        simp only [List.length_cons, List.length_nil] at hk
        have hk0 : k = 0 := by omega
        subst hk0
        simp only [List.get_eq_getElem, List.getElem_cons_zero]
        exact instrDest_mk _ _ (regName_no_space 1)
    refine ⟨hdest, ?_⟩
    intro j k hj hk heq
    rw [hdest j hj, hdest k hk] at heq
    have := regName_inj heq
    omega

/-- C6 witness: for `x = 6 + 9` the first instruction writes `R1`. -/
theorem C6_witness :
    instrDest ((["R1 <- 6", "R2 <- 9", "R3 <- R1 + R2", "x <- R3"] : List String).get
      ⟨0, by norm_num⟩) = regName 1 := by
  have hc : RTLConverter.convert_to_rtl ⟨1, []⟩ "x = 6 + 9" =
      (["R1 <- 6", "R2 <- 9", "R3 <- R1 + R2", "x <- R3"], "") := by
    simp [RTLConverter.convert_to_rtl, RTLConverter.reset, convertLoop, parse_expression,
      scanTokens, splitEq, stripWs, is_number, pyIsAlpha, pyIntSigned, pyIntCore, intDigitTail,
      is_operator, isValidVarName, isWordChar, isOpChar, regName]
    decide
  exact ((C6_registers ⟨1, []⟩ ⟨1, []⟩ "x = 6 + 9"
    ["R1 <- 6", "R2 <- 9", "R3 <- R1 + R2", "x <- R3"]).2 hc).1 0 (by norm_num)

/-- C7: for every input that translates successfully, the destination of
the last instruction is the declared left-hand-side variable name (the
trimmed text before the `=`). -/
theorem C7_last_destination (st : RTLConverter) (e : String) (instrs : List String)
    (h : st.convert_to_rtl e = (instrs, "")) :
    instrs ≠ [] ∧ instrDest (instrs.getLastD "") = lhsVar e := by
  obtain ⟨p0, p1, hsp, hvv, hcase⟩ := convert_success_cases st e instrs h
  rw [lhsVar_eq hsp]
  rcases hcase with ⟨t, htk, hop, rfl⟩ | ⟨t0, t1, rest, htk, hop, hloop⟩
  · refine ⟨by simp, ?_⟩
    show instrDest (String.mk (stripWs p0) ++ " <- " ++ t) = _
    exact instrDest_mk _ _ (var_no_space hvv)
  · obtain ⟨hne, cur2, hlast⟩ := convertLoop_last (String.mk (stripWs p0))
      (t1 :: rest).length (t1 :: rest) le_rfl _ _ _ _ hloop
    refine ⟨hne, ?_⟩
    rw [hlast]
    exact instrDest_mk _ _ (var_no_space hvv)

/-- C7 witness: for `x = 5` the last instruction writes `x`. -/
theorem C7_witness :
    (["x <- 5"] : List String) ≠ [] ∧
    instrDest ((["x <- 5"] : List String).getLastD "") = lhsVar "x = 5" := by
  have hc : RTLConverter.convert_to_rtl ⟨1, []⟩ "x = 5" = (["x <- 5"], "") := by
    simp [RTLConverter.convert_to_rtl, RTLConverter.reset, convertLoop, parse_expression,
      scanTokens, splitEq, stripWs, is_number, pyIsAlpha, pyIntSigned, pyIntCore, intDigitTail,
      is_operator, isValidVarName, isWordChar, isOpChar, regName]
  exact C7_last_destination ⟨1, []⟩ "x = 5" ["x <- 5"] hc

/-- C8 counterexample: `(` is silently discarded, yet inserting it inside
the word `ab` changes the token stream from `["ab"]` to `["a", "b"]` and
turns a successful translation into a failure. -/
theorem C8_counterexample :
    parse_expression "a(b" = ["a", "b"] ∧
    parse_expression "ab" = ["ab"] ∧
    RTLConverter.convert_to_rtl ⟨1, []⟩ "x = a(b" =
      ([], "Error: Expected operator at position 1") ∧
    RTLConverter.convert_to_rtl ⟨1, []⟩ "x = ab" = (["x <- ab"], "") := by
  refine ⟨?_, ?_, ?_, ?_⟩
  · simp [parse_expression, scanTokens, isWordChar, isOpChar]
  · simp [parse_expression, scanTokens, isWordChar, isOpChar]
  · simp [RTLConverter.convert_to_rtl, RTLConverter.reset, convertLoop, parse_expression,
      scanTokens, splitEq, stripWs, is_number, pyIsAlpha, pyIntSigned, pyIntCore, intDigitTail,
      is_operator, isValidVarName, isWordChar, isOpChar, regName]
    all_goals decide
  · simp [RTLConverter.convert_to_rtl, RTLConverter.reset, convertLoop, parse_expression,
      scanTokens, splitEq, stripWs, is_number, pyIsAlpha, pyIntSigned, pyIntCore, intDigitTail,
      is_operator, isValidVarName, isWordChar, isOpChar, regName]

/-- C8 (amended): a right-hand-side character that is neither a word
character nor an operator is silently discarded — it never causes a
failure and never appears in any token — but it still terminates an
adjacent digit or word run, so inserting one inside a token splits the
token stream and can change the translation result (e.g. `a(b` vs `ab`). -/
theorem C8_amended_discard :
    (∀ (c : Char) (cs : List Char), isWordChar c = false → isOpChar c = false →
      scanTokens (c :: cs) = scanTokens cs) ∧
    (∀ (l : List Char) (t : String), t ∈ scanTokens l →
      ∀ c ∈ t.data, isWordChar c = true ∨ isOpChar c = true) ∧
    parse_expression "a(b" ≠ parse_expression "ab" := by
  refine ⟨?_, ?_, ?_⟩
  · intro c cs hw hop
    have hd : c.isDigit = false := by
      by_contra hc
      rw [Bool.not_eq_false] at hc
      rw [digit_isWordChar hc] at hw
      exact absurd hw (by decide)
    rw [scanTokens, if_neg (by rw [hd]; simp), if_neg (by rw [hw]; simp),
      if_neg (by rw [hop]; simp)]
  · intro l t ht c hc
    rcases scanTokens_shape l t ht with ⟨hne, hdig⟩ | ⟨c0, cs, hdata, hword, hc0, hcs⟩ |
      ⟨c0, hdata, hop⟩
    · exact Or.inl (digit_isWordChar (hdig c hc))
    · rw [hdata] at hc
      rcases List.mem_cons.mp hc with rfl | hc2
      · exact Or.inl hword
      · exact Or.inl (hcs c hc2)
    · rw [hdata] at hc
      rcases List.mem_cons.mp hc with rfl | hc2
      · exact Or.inr hop
      · simp at hc2
  · intro hcontra
    have h1 : parse_expression "a(b" = ["a", "b"] := by
      simp [parse_expression, scanTokens, isWordChar, isOpChar]
    have h2 : parse_expression "ab" = ["ab"] := by
      simp [parse_expression, scanTokens, isWordChar, isOpChar]
    rw [h1, h2] at hcontra
    exact absurd hcontra (by decide)

/-- C8 witness: the discarded `(` contributes nothing to the scan of
`(ab`. -/
theorem C8_witness :
    scanTokens ('(' :: 'a' :: 'b' :: []) = scanTokens ('a' :: 'b' :: []) :=
  C8_amended_discard.1 '(' ('a' :: 'b' :: []) (by decide) (by decide)

/-- C9: a token containing an underscore is never accepted as an operand —
it is neither `int(...)`-parsable nor purely alphabetic — so as a single
right-hand-side token it fails with the invalid-single-token error, and at
an operand position of a multi-token expression it fails with the
expected-number-or-variable error. -/
theorem C9_underscore_rejected :
    (∀ (l : List Char) (t : String), t ∈ scanTokens l → '_' ∈ t.data →
      is_number t = false ∧ pyIsAlpha t = false) ∧
    RTLConverter.convert_to_rtl ⟨1, []⟩ "x = _a" = ([], "Error: Invalid single token") ∧
    RTLConverter.convert_to_rtl ⟨1, []⟩ "x = a_b" = ([], "Error: Invalid single token") ∧
    RTLConverter.convert_to_rtl ⟨1, []⟩ "x = c + a_b" =
      ([], "Error: Expected number or variable at position 2") := by
  refine ⟨underscore_token_invalid, ?_, ?_, ?_⟩
  · simp [RTLConverter.convert_to_rtl, RTLConverter.reset, convertLoop, parse_expression,
      scanTokens, splitEq, stripWs, is_number, pyIsAlpha, pyIntSigned, pyIntCore, intDigitTail,
      is_operator, isValidVarName, isWordChar, isOpChar, regName]
  · simp [RTLConverter.convert_to_rtl, RTLConverter.reset, convertLoop, parse_expression,
      scanTokens, splitEq, stripWs, is_number, pyIsAlpha, pyIntSigned, pyIntCore, intDigitTail,
      is_operator, isValidVarName, isWordChar, isOpChar, regName]
  · simp [RTLConverter.convert_to_rtl, RTLConverter.reset, convertLoop, parse_expression,
      scanTokens, splitEq, stripWs, is_number, pyIsAlpha, pyIntSigned, pyIntCore, intDigitTail,
      is_operator, isValidVarName, isWordChar, isOpChar, regName]
    all_goals decide

/-- C9 witness: the token `_a` passes neither operand test. -/
theorem C9_witness : is_number "_a" = false ∧ pyIsAlpha "_a" = false := by
  refine C9_underscore_rejected.1 ('_' :: 'a' :: []) "_a" ?_ (by decide)
  rw [scanTokens, if_neg (by decide), if_pos (by decide)]
  simp
  decide

/-- C10: for every input that translates successfully, every register name
appearing as a source in any instruction is the destination of a strictly
earlier instruction in the returned list. -/
theorem C10_reads_after_writes (st : RTLConverter) (e : String) (instrs : List String)
    (h : st.convert_to_rtl e = (instrs, "")) :
    readsAfterWrites instrs := by
  obtain ⟨p0, p1, hsp, hvv, hcase⟩ := convert_success_cases st e instrs h
  rcases hcase with ⟨t, htk, hop, rfl⟩ | ⟨t0, t1, rest, htk, hop, hloop⟩
  · have h0 : readsAfterWrites ([] ++ [String.mk (stripWs p0) ++ " <- " ++ t]) := by
      refine raw_append_one [] _ (by intro i hi; simp at hi) ?_
      intro s hs hreg
      rw [instrSrcs_mk _ _ (var_no_space hvv)] at hs
      rw [operand_words_not_reg hop s hs] at hreg
      exact absurd hreg (by decide)
    simpa using h0
  · refine convertLoop_raw (String.mk (stripWs p0)) (var_no_space hvv)
      (t1 :: rest).length (t1 :: rest) le_rfl ⟨2, [regName 1 ++ " <- " ++ t0]⟩
      (regName 1) 1 instrs hloop ?_ ?_ (regName_no_space 1) (regName_ne_nil 1)
    · have h0 : readsAfterWrites ([] ++ [regName 1 ++ " <- " ++ t0]) := by
        refine raw_append_one [] _ (by intro i hi; simp at hi) ?_
        intro s hs hreg
        rw [instrSrcs_mk _ _ (regName_no_space 1)] at hs
        rw [operand_words_not_reg hop s hs] at hreg
        exact absurd hreg (by decide)
      simpa using h0
    · simp only [List.map_cons, List.map_nil]
      rw [instrDest_mk _ _ (regName_no_space 1)]
      simp

/-- C10 witness: in the output for `x = 6 + 9`, every register read is
preceded by its write. -/
theorem C10_witness :
    readsAfterWrites ["R1 <- 6", "R2 <- 9", "R3 <- R1 + R2", "x <- R3"] := by
  have hc : RTLConverter.convert_to_rtl ⟨1, []⟩ "x = 6 + 9" =
      (["R1 <- 6", "R2 <- 9", "R3 <- R1 + R2", "x <- R3"], "") := by
    simp [RTLConverter.convert_to_rtl, RTLConverter.reset, convertLoop, parse_expression,
      scanTokens, splitEq, stripWs, is_number, pyIsAlpha, pyIntSigned, pyIntCore, intDigitTail,
      is_operator, isValidVarName, isWordChar, isOpChar, regName]
    decide
  exact C10_reads_after_writes ⟨1, []⟩ "x = 6 + 9"
    ["R1 <- 6", "R2 <- 9", "R3 <- R1 + R2", "x <- R3"] hc

end App
